import Mathlib

/-!
# Verification of the website-archiver recursive mirror core

Shallow embedding of `Sudo-Ivan/website-archiver` (Go).  The repository has
two parts: a CLI driver (`main.go`: `validateURL`, `downloadWithWget`,
`getDomain`, `processURL`, `handleDownloadResult`, `handlePostDownloadTasks`)
and a recursive downloader package (`Download`, `downloadRecursive`,
`getPathFromURL`, `resolveURL`).

Strings are modelled as Lean `String` (a wrapper around `List Char`); the Go
`strings`/`path/filepath`/`net/url` standard-library functions the code calls
are embedded as recursive functions over `List Char`:

* `trimPreL` = `strings.TrimPrefix`, `startsWithL` = `strings.HasPrefix`,
  `endsWithL` = `strings.HasSuffix`, `containsL` = `strings.Contains`;
* `cleanL` = `path/filepath.Clean` (Unix), implemented by the standard
  segment algorithm: split on `/`, drop empty and `.` segments, let `..`
  erase the preceding segment (kept at the front of a relative path, dropped
  at the root of a rooted path), rejoin — extensionally the lazybuf
  algorithm of the Go source;
* `parseURL`/`resolveReference`/`resolvePathL` = `net/url`'s `Parse`,
  `URL.ResolveReference` and `resolvePath` (RFC 3986 merge + dot-segment
  removal, Go flavour: empty segments preserved, `..` at the root ignored,
  a trailing `.`/`..` leaves a trailing slash).  Elided: percent-escapes,
  query/fragment components, userinfo and ports (so `Hostname()` is the
  `host` field).  `url.Parse` errors are modelled as in Go: ASCII control
  bytes and a leading `:` are rejected; the scheme is lower-cased.

Effects (HTTP fetches, directory creation, file writes, link resolutions)
are recorded in an event trace; the network is a `World` function from the
rendered URL to an optional response.  Child downloads run as fire-and-forget
goroutines in Go whose errors are discarded; the model keeps their traces
(appended after the parent's own events) and discards their results, which is
exactly the information the parent has.
-/

set_option maxRecDepth 10000

namespace WebArch

/-! ## Go `strings` primitives over `List Char` -/

/-- `strings.HasPrefix`. -/
def startsWithL (pre s : List Char) : Bool := pre.isPrefixOf s

/-- `strings.HasSuffix`. -/
def endsWithL (suf s : List Char) : Bool := suf.isSuffixOf s

/-- `strings.TrimPrefix`: drop `pre` when present, else return `s` unchanged. -/
def trimPreL (pre s : List Char) : List Char :=
  if startsWithL pre s then s.drop pre.length else s

/-- `strings.Contains`. -/
def containsL (sub : List Char) : List Char → Bool
  | [] => sub.isEmpty
  | c :: rest => startsWithL sub (c :: rest) || containsL sub rest

/-- `strings.Split(s, "/")`: never returns `[]`. -/
def splitSlash : List Char → List (List Char)
  | [] => [[]]
  | c :: rest =>
    if c = '/' then [] :: splitSlash rest
    else
      match splitSlash rest with
      | [] => [[c]]
      | seg :: segs => (c :: seg) :: segs

/-- `strings.Join(l, "/")`. -/
def joinSlash : List (List Char) → List Char
  | [] => []
  | [s] => s
  | s :: t :: rest => s ++ '/' :: joinSlash (t :: rest)

/-! ## `path/filepath.Clean` (Unix) -/

/-- One step of `Clean`'s segment processing.  `acc` holds the output
segments in reverse order. -/
def cleanPush (rooted : Bool) (acc : List (List Char)) (seg : List Char) :
    List (List Char) :=
  if seg = [] ∨ seg = ['.'] then acc
  else if seg = ['.', '.'] then
    if acc = [] then (if rooted then [] else [['.', '.']])
    else if acc.headD [] = ['.', '.'] then ['.', '.'] :: acc else acc.tail
  else seg :: acc

/-- The cleaned segment list of a path. -/
def cleanSegs (rooted : Bool) (segs : List (List Char)) : List (List Char) :=
  (segs.foldl (cleanPush rooted) []).reverse

/-- `filepath.Clean` on Unix: a rooted path keeps its leading `/` (with the
cleaned body after it), a relative path whose cleaned body is empty becomes
`.`. -/
def cleanL (p : List Char) : List Char :=
  if p = [] then ['.']
  else if startsWithL ['/'] p then
    '/' :: joinSlash (cleanSegs true (splitSlash p))
  else if joinSlash (cleanSegs false (splitSlash p)) = [] then ['.']
  else joinSlash (cleanSegs false (splitSlash p))

/-! ## `getPathFromURL` (downloader package)

```go
func getPathFromURL(u *url.URL, isHTML bool) string {
    path := u.Path
    if strings.HasSuffix(path, "/") || path == "" {
        if isHTML { path += "index.html" } else { path += "index" }
    }
    cleanPath := filepath.Clean(strings.TrimPrefix(path, "/"))
    if strings.HasPrefix(cleanPath, "..") { return "" }
    return cleanPath
}
```
-/

/-- `getPathFromURL` over the URL's path component as a char list. -/
def goGetPath (path : List Char) (isHTML : Bool) : List Char :=
  let path :=
    if endsWithL ['/'] path ∨ path = [] then
      path ++ (if isHTML then "index.html".data else "index".data)
    else path
  let cleanPath := cleanL (trimPreL ['/'] path)
  if startsWithL ['.', '.'] cleanPath then [] else cleanPath

/-! ## Filesystem-location semantics for path safety

`resolveUnder root s` is the directory-component stack denoted by
`filepath.Join(root..., s)` after the operating system resolves `.` and `..`
components: starting from the components of the output root, each ordinary
segment of `s` descends, `.` and empty segments are no-ops, and `..` ascends
one level.  "The location is at or below the output root" is `root <+:
resolveUnder root s`. -/

def resolveStep (st : List (List Char)) (seg : List Char) : List (List Char) :=
  if seg = [] ∨ seg = ['.'] then st
  else if seg = ['.', '.'] then st.dropLast
  else st ++ [seg]

def resolveUnder (root : List (List Char)) (s : List Char) : List (List Char) :=
  (splitSlash s).foldl resolveStep root

/-! ## `net/url` model

A parsed URL.  `opq` is Go's `URL.Opaque` (the rest of a `scheme:restofurl`
reference with no authority and no rooted path).  Userinfo, ports, query and
fragment are elided, so `host` doubles as Go's `Hostname()`. -/

structure GoURL where
  scheme : String
  host : String
  path : String
  opq : String
deriving DecidableEq

/-- `URL.String()` for the modelled components. -/
def urlString (u : GoURL) : String :=
  if u.opq ≠ "" then u.scheme ++ ":" ++ u.opq
  else u.scheme ++ "://" ++ u.host ++ u.path

def isCtl (c : Char) : Bool := c.toNat < 32 || c.toNat = 127

def isAlphaChar (c : Char) : Bool :=
  ('a' ≤ c && c ≤ 'z') || ('A' ≤ c && c ≤ 'Z')

def isSchemeChar (c : Char) : Bool :=
  isAlphaChar c || ('0' ≤ c && c ≤ '9') || c = '+' || c = '-' || c = '.'

def asciiLower (c : Char) : Char :=
  if 'A' ≤ c && c ≤ 'Z' then Char.ofNat (c.toNat + 32) else c

/-- `net/url.getScheme`: `none` is a parse error (a `:` before any scheme
character, "missing protocol scheme"); `some none` means no scheme (a
relative reference); `some (some (sch, rest))` splits `scheme:rest` with the
scheme lower-cased as `url.Parse` does.  `acc` holds scheme chars reversed. -/
def schemeLoop : List Char → List Char → Option (Option (List Char × List Char))
  | [], _ => some none
  | c :: rest, acc =>
    if c = ':' then
      if acc = [] then none else some (some (acc.reverse.map asciiLower, rest))
    else if isAlphaChar c then schemeLoop rest (c :: acc)
    else if acc ≠ [] && isSchemeChar c then schemeLoop rest (c :: acc)
    else some none

/-- `url.Parse` restricted to the modelled components. -/
def parseURL (raw : String) : Option GoURL :=
  let s := raw.data
  if s.any isCtl then none
  else
    match schemeLoop s [] with
    | none => none
    | some schOpt =>
      let sch : List Char := (schOpt.map Prod.fst).getD []
      let rest : List Char := (schOpt.map Prod.snd).getD s
      if startsWithL ['/', '/'] rest then
        let rest2 := rest.drop 2
        some ⟨⟨sch⟩, ⟨rest2.takeWhile (· ≠ '/')⟩, ⟨rest2.dropWhile (· ≠ '/')⟩, ""⟩
      else if sch ≠ [] then
        if startsWithL ['/'] rest then some ⟨⟨sch⟩, "", ⟨rest⟩, ""⟩
        else some ⟨⟨sch⟩, "", "", ⟨rest⟩⟩
      else some ⟨"", "", ⟨rest⟩, ""⟩

/-- One step of `net/url.resolvePath`'s dot-segment removal. -/
def dotSegStep (st : List (List Char)) (s : List Char) : List (List Char) :=
  if s = ['.'] then st
  else if s = ['.', '.'] then st.dropLast
  else st ++ [s]

/-- `base[:strings.LastIndex(base, "/")+1]`. -/
def upToLastSlash (s : List Char) : List Char :=
  ((s.reverse.dropWhile (· ≠ '/')).reverse)

/-- `net/url.resolvePath(base, ref)`: RFC 3986 merge followed by
dot-segment removal (empty segments preserved, `..` ignored at the root, a
trailing `.`/`..` leaves a trailing slash, result forced to start with `/`). -/
def resolvePathL (base ref : List Char) : List Char :=
  let full :=
    if ref = [] then base
    else if startsWithL ['/'] ref then ref
    else upToLastSlash base ++ ref
  if full = [] then []
  else
    let segs := splitSlash (trimPreL ['/'] full)
    let stack := segs.foldl dotSegStep []
    let trail : List (List Char) :=
      match segs.getLast? with
      | some s => if s = ['.'] ∨ s = ['.', '.'] then [[]] else []
      | none => []
    '/' :: joinSlash (stack ++ trail)

/-- `URL.ResolveReference` for the modelled components. -/
def resolveReference (base r : GoURL) : GoURL :=
  if r.scheme ≠ "" ∨ r.host ≠ "" then
    { scheme := if r.scheme ≠ "" then r.scheme else base.scheme,
      host := r.host, path := ⟨resolvePathL r.path.data []⟩, opq := r.opq }
  else if r.opq ≠ "" then
    { scheme := base.scheme, host := "", path := "", opq := r.opq }
  else if r.path = "" then
    { scheme := base.scheme, host := base.host, path := base.path, opq := "" }
  else
    { scheme := base.scheme, host := base.host,
      path := ⟨resolvePathL base.path.data r.path.data⟩, opq := "" }

/-! ## The downloader package (`Download` / `downloadRecursive`) -/

/-- `getPathFromURL` at the source signature. -/
def getPathFromURL (u : GoURL) (isHTML : Bool) : String :=
  ⟨goGetPath u.path.data isHTML⟩

/--
```go
func resolveURL(baseURL *url.URL, ref string) *url.URL {
    refURL, err := url.Parse(ref)
    if err != nil { return nil }
    return baseURL.ResolveReference(refURL)
}
```
-/
def resolveURL (baseURL : GoURL) (ref : String) : Option GoURL :=
  match parseURL ref with
  | none => none
  | some r => some (resolveReference baseURL r)

/-- A parsed HTML document (`golang.org/x/net/html` node tree): element
nodes carry a tag, an ordered attribute list and children; other node kinds
(text, comments, doctype) carry no attributes and, once parsed, no link
content, and are collapsed into `text`. -/
inductive Html where
  | elem (tag : String) (attrs : List (String × String)) (children : List Html)
  | text (s : String)

mutual

def htmlBEq : Html → Html → Bool
  | .elem t1 a1 c1, .elem t2 a2 c2 => t1 == t2 && a1 == a2 && htmlListBEq c1 c2
  | .text s1, .text s2 => s1 == s2
  | .elem _ _ _, .text _ => false
  | .text _, .elem _ _ _ => false

def htmlListBEq : List Html → List Html → Bool
  | [], [] => true
  | x :: xs, y :: ys => htmlBEq x y && htmlListBEq xs ys
  | [], _ :: _ => false
  | _ :: _, [] => false

end

mutual

theorem htmlBEq_iff : ∀ a b : Html, htmlBEq a b = true ↔ a = b
  | .elem t1 a1 c1, .elem t2 a2 c2 => by
    simp [htmlBEq, htmlListBEq_iff c1 c2, Html.elem.injEq, and_assoc]
  | .elem _ _ _, .text _ => by simp [htmlBEq]
  | .text _, .elem _ _ _ => by simp [htmlBEq]
  | .text s1, .text s2 => by simp [htmlBEq, Html.text.injEq]

theorem htmlListBEq_iff : ∀ xs ys : List Html, htmlListBEq xs ys = true ↔ xs = ys
  | [], [] => by simp [htmlListBEq]
  | [], _ :: _ => by simp [htmlListBEq]
  | _ :: _, [] => by simp [htmlListBEq]
  | x :: xs, y :: ys => by
    simp [htmlListBEq, htmlBEq_iff x y, htmlListBEq_iff xs ys]

end

instance : DecidableEq Html := fun a b => decidable_of_iff _ (htmlBEq_iff a b)

/-- The attribute keys the walker treats as links:
`case "href", "src":` and `case "poster":`. -/
def isLinkKey (k : String) : Bool := k = "href" || k = "src" || k = "poster"

/-- The walker's candidate filter:
`link == "" || HasPrefix(link, "#") || HasPrefix(link, "mailto:") || HasPrefix(link, "tel:")`. -/
def skipLink (link : String) : Bool :=
  link = "" || startsWithL ['#'] link.data
    || startsWithL ("mailto:".data) link.data
    || startsWithL ("tel:".data) link.data

/-- The classification the walker passes to `getPathFromURL` when rewriting
a link: `strings.Contains(link, ".html") || strings.Contains(link, ".htm")`
on the raw attribute text. -/
def linkLooksHTML (link : String) : Bool :=
  containsL (".html".data) link.data || containsL (".htm".data) link.data

/-- Events observable in a run: HTTP GETs issued (with the remaining depth
at the time), link resolutions performed while walking a page, files saved
(with the rewritten document for HTML), and output-root creation. -/
inductive Ev where
  | fetch (u : GoURL) (rd : Int)
  | res (page : GoURL) (link : String) (resolved : Option GoURL)
  | savePage (u : GoURL) (isHTML : Bool) (doc : Option Html) (relPath : String)
  | mkdirRoot (dir : String)
deriving DecidableEq

/-- Processing of one attribute inside the walker `f`: returns the
(possibly rewritten) attribute, the resolution events performed, and the
URLs dispatched to recursive downloads. -/
def procAttr (cur : GoURL) (kv : String × String) :
    (String × String) × List Ev × List GoURL :=
  if ¬ isLinkKey kv.1 then (kv, [], [])
  else if skipLink kv.2 then (kv, [], [])
  else
    match resolveURL cur kv.2 with
    | none => (kv, [Ev.res cur kv.2 none], [])
    | some ru =>
      if urlString ru = urlString cur then (kv, [Ev.res cur kv.2 (some ru)], [])
      else ((kv.1, getPathFromURL ru (linkLooksHTML kv.2)),
            [Ev.res cur kv.2 (some ru)], [ru])

/-- `for i, a := range n.Attr`, in order. -/
def procAttrs (cur : GoURL) :
    List (String × String) → List (String × String) × List Ev × List GoURL
  | [] => ([], [], [])
  | kv :: rest =>
    let a := procAttr cur kv
    let b := procAttrs cur rest
    (a.1 :: b.1, a.2.1 ++ b.2.1, a.2.2 ++ b.2.2)

mutual

/-- The walker `f`: rewrite this node's link attributes, then walk the
children.  Returns the rewritten node, the resolution events, and the
dispatched URLs (in walk order). -/
def procNode (cur : GoURL) : Html → Html × List Ev × List GoURL
  | .elem tag attrs cs =>
    let a := procAttrs cur attrs
    let b := procKids cur cs
    (.elem tag a.1 b.1, a.2.1 ++ b.2.1, a.2.2 ++ b.2.2)
  | .text s => (.text s, [], [])

def procKids (cur : GoURL) : List Html → List Html × List Ev × List GoURL
  | [] => ([], [], [])
  | c :: cs =>
    let a := procNode cur c
    let b := procKids cur cs
    (a.1 :: b.1, a.2.1 ++ b.2.1, a.2.2 ++ b.2.2)

end

/-- An HTTP response: status code, `Content-Type` header value, and (for
HTML bodies) the parsed document. -/
structure Page where
  status : Nat
  contentType : String
  doc : Html
deriving DecidableEq

/-- The network, keyed by the rendered URL; `none` is a connection error. -/
def World := String → Option Page

/-- Download failures bubbled by `downloadRecursive` for its own target. -/
inductive DlErr where
  | badURL
  | badScheme
  | network (u : String)
  | status (u : String) (code : Nat)
deriving DecidableEq

instance : DecidableEq (Except DlErr Unit) := fun a b =>
  match a, b with
  | .ok (), .ok () => isTrue rfl
  | .error e, .error f =>
    match decEq e f with
    | isTrue h => isTrue (by rw [h])
    | isFalse h => isFalse (by intro he; injection he; contradiction)
  | .ok _, .error _ => isFalse (by intro h; injection h)
  | .error _, .ok _ => isFalse (by intro h; injection h)

/-- `downloadRecursive` with the non-negative part of the depth budget as
structural fuel: fuel `0` is the `depth < 0` base case; at fuel `n+1` the
remaining depth is `n`.  The body mirrors the Go source in order: domain
guard, GET, status check, content-type classification, save, and — for HTML
— walk/rewrite, dispatch of every discovered URL at `depth-1`, save of the
rewritten document.  Child results are discarded exactly as the
fire-and-forget goroutine discards them; child traces are appended. -/
def downloadRecN (w : World) (baseDomain : String) :
    Nat → GoURL → Except DlErr Unit × List Ev
  | 0, _ => (.ok (), [])
  | Nat.succ fuel, u =>
    if u.host ≠ baseDomain ∧ baseDomain ≠ "" then (.ok (), [])
    else
      let fe := Ev.fetch u (fuel : Int)
      match w (urlString u) with
      | none => (.error (.network (urlString u)), [fe])
      | some pg =>
        if pg.status ≠ 200 then (.error (.status (urlString u) pg.status), [fe])
        else
          let isHTML := containsL ("text/html".data) pg.contentType.data
          if isHTML then
            let a := procNode u pg.doc
            (.ok (),
             fe :: Ev.savePage u true (some a.1) (getPathFromURL u true)
                :: a.2.1
                ++ (a.2.2.map (fun t => (downloadRecN w baseDomain fuel t).2)).flatten)
          else
            (.ok (), [fe, Ev.savePage u false none (getPathFromURL u false)])

/-- `downloadRecursive(ctx, currentURL, baseDomain, depth, outputDir, cfg)`:
the `depth < 0` base case, then the fuel-indexed body. -/
def downloadRecursive (w : World) (u : GoURL) (baseDomain : String)
    (depth : Int) : Except DlErr Unit × List Ev :=
  if depth < 0 then (.ok (), [])
  else downloadRecN w baseDomain (depth.toNat + 1) u

/-- `Download(ctx, rawURL, depth, outputDir, cfg)`: parse, scheme check,
create the output root, recurse anchored at the seed's hostname. -/
def Download (w : World) (rawURL : String) (depth : Int) (outputDir : String) :
    Except DlErr Unit × List Ev :=
  match parseURL rawURL with
  | none => (.error .badURL, [])
  | some u =>
    if u.scheme ≠ "http" ∧ u.scheme ≠ "https" then (.error .badScheme, [])
    else
      let r := downloadRecursive w u u.host depth
      (r.1, Ev.mkdirRoot outputDir :: r.2)

/-! ## CLI driver (`main.go`) -/

/-- `validateURL`: parse, then require scheme `http` or `https`. -/
def validateURL (rawURL : String) : Bool :=
  match parseURL rawURL with
  | none => false
  | some u => u.scheme = "http" || u.scheme = "https"

/-- `getDomain`: trim a `http://` then a `https://` lead, cut at the first
`/`. -/
def getDomain (url : String) : String :=
  let d := trimPreL ("http://".data) url.data
  let d := trimPreL ("https://".data) d
  ⟨d.takeWhile (· ≠ '/')⟩

/-- The wget argument vector `downloadWithWget` builds. -/
def wgetArgs (url : String) (depth : Int) (outputDir : String) : List String :=
  ["--no-clobber", "--html-extension", "--convert-links",
   "--restrict-file-names=windows", "--domains", getDomain url, "--no-parent",
   "--directory-prefix=" ++ outputDir]
  ++ (if depth = 0 then ["--page-requisites"]
      else ["--recursive", "--level=" ++ toString depth])
  ++ [url]

/-- `downloadWithWget(ctx, url, depth, outputDir, cfg)`: the depth-range
validation (`depth < pkg.ZeroDepth || depth > cfg.MaxDepth`) precedes the
wget invocation; on success the model returns the argument vector handed to
wget.  `pkg.MaxDepth = 5` in `pkg/constants.go`. -/
def downloadWithWget (url : String) (depth : Int) (outputDir : String)
    (maxDepth : Int) : Except Unit (List String) :=
  if depth < 0 ∨ depth > maxDepth then .error ()
  else .ok (wgetArgs url depth outputDir)

/-- Observable steps of `processURL` and its two helpers. -/
inductive DrvEv where
  | mkdirOut
  | downloadAttempt
  | selectionPage
  | zimCreate
  | removeAll
  | result (ok : Bool)
deriving DecidableEq

/-- `handleDownloadResult(url, outputDir, err, results)`: emit the result;
on error also `os.RemoveAll(outputDir)`. -/
def handleDownloadResult (failed : Bool) : List DrvEv :=
  if failed then [.result false, .removeAll] else [.result true]

/-- `handlePostDownloadTasks(ctx, snapshots, outputDir, url, createZim)`:
selection page when more than one snapshot, optional ZIM creation, then
unconditionally `os.RemoveAll(outputDir)`. -/
def handlePostDownloadTasks (snapCount : Nat) (createZim : Bool) : List DrvEv :=
  (if snapCount > 1 then [.selectionPage] else [])
  ++ (if createZim then [.zimCreate] else [])
  ++ [.removeAll]

/-- `processURL`: create the per-URL output directory, attempt the download
(wget direct, wayback fallback, or a specific snapshot — collapsed to its
success flag and snapshot count), then post-download tasks on success and
result reporting. -/
def processURL (mkdirOK : Bool) (downloadOK : Bool) (snapCount : Nat)
    (createZim : Bool) : List DrvEv :=
  DrvEv.mkdirOut ::
    (if ¬ mkdirOK then [DrvEv.result false]
     else DrvEv.downloadAttempt ::
       (if downloadOK then
          handlePostDownloadTasks snapCount createZim ++ handleDownloadResult false
        else handleDownloadResult true))

/-! ## Definitions following the spec's words (for refinement comparison) -/

/-- Modelled from the spec: the HTML/non-HTML classification of a link
"inferred from its resolved extension" (claim C4's wording) — the resolved
URL's path ends in `.html` or `.htm`. -/
def specResolvedExtHTML (u : GoURL) : Bool :=
  endsWithL (".html".data) u.path.data || endsWithL (".htm".data) u.path.data

/-- The per-attribute rewrite the code performs, stated pointwise: a link
attribute surviving the filter whose resolution is non-nil and differs from
the current page's URL is replaced by the local path mapping computed with
the raw-text `.html`/`.htm` containment classification; everything else is
left unchanged. -/
def rewrittenVal (cur : GoURL) (v : String) : String :=
  if skipLink v then v
  else
    match resolveURL cur v with
    | none => v
    | some ru =>
      if urlString ru = urlString cur then v
      else getPathFromURL ru (linkLooksHTML v)

mutual

/-- The pointwise rewrite applied over a whole document. -/
def mapAttrsTree (cur : GoURL) : Html → Html
  | .elem tag attrs cs =>
    .elem tag
      (attrs.map (fun kv =>
        if isLinkKey kv.1 then (kv.1, rewrittenVal cur kv.2) else kv))
      (mapAttrsKids cur cs)
  | .text s => .text s

def mapAttrsKids (cur : GoURL) : List Html → List Html
  | [] => []
  | c :: cs => mapAttrsTree cur c :: mapAttrsKids cur cs

end

mutual

/-- The flat list of candidate link-attribute values of a document, in walk
order (element attributes first, then children). -/
def flatCands : Html → List String
  | .elem _ attrs cs =>
    (attrs.filter (fun kv => isLinkKey kv.1)).map Prod.snd ++ flatCandsKids cs
  | .text _ => []

def flatCandsKids : List Html → List String
  | [] => []
  | c :: cs => flatCands c ++ flatCandsKids cs

end

/-- The fetch events of a trace, as (target, remaining depth) pairs. -/
def fetchEvs : List Ev → List (GoURL × Int)
  | [] => []
  | Ev.fetch u rd :: rest => (u, rd) :: fetchEvs rest
  | _ :: rest => fetchEvs rest

/-! ## Lemmas: splitting and joining on `/` -/

theorem splitSlash_ne_nil (s : List Char) : splitSlash s ≠ [] := by
  induction s with
  | nil => simp [splitSlash]
  | cons c rest ih =>
    simp only [splitSlash]
    split
    · simp
    · rcases h : splitSlash rest with _ | ⟨seg, segs⟩
      · simp
      · simp

theorem splitSlash_no_slash (s : List Char) :
    ∀ seg ∈ splitSlash s, '/' ∉ seg := by
  induction s with
  | nil => simp [splitSlash]
  | cons c rest ih =>
    intro seg hseg
    simp only [splitSlash] at hseg
    by_cases hc : c = '/'
    · rw [if_pos hc] at hseg
      rcases List.mem_cons.mp hseg with rfl | h
      · simp
      · exact ih seg h
    · rw [if_neg hc] at hseg
      rcases hsp : splitSlash rest with _ | ⟨sg, sgs⟩
      · exact absurd hsp (splitSlash_ne_nil rest)
      · rw [hsp] at hseg
        rcases List.mem_cons.mp hseg with rfl | h
        · intro hmem
          rcases List.mem_cons.mp hmem with h1 | h1
          · exact hc h1.symm
          · exact ih sg (hsp ▸ List.mem_cons_self _ _) h1
        · exact ih seg (hsp ▸ List.mem_cons_of_mem _ h)

theorem splitSlash_of_no_slash (s : List Char) (h : '/' ∉ s) :
    splitSlash s = [s] := by
  induction s with
  | nil => simp [splitSlash]
  | cons c rest ih =>
    have hc : ¬ c = '/' := by intro he; exact h (he ▸ List.mem_cons_self _ _)
    have ih' := ih (fun hm => h (List.mem_cons_of_mem _ hm))
    simp only [splitSlash, if_neg hc, ih']

theorem splitSlash_append_slash (s u : List Char) (h : '/' ∉ s) :
    splitSlash (s ++ '/' :: u) = s :: splitSlash u := by
  induction s with
  | nil => simp [splitSlash]
  | cons c rest ih =>
    have hc : ¬ c = '/' := by intro he; exact h (he ▸ List.mem_cons_self _ _)
    have ih' := ih (fun hm => h (List.mem_cons_of_mem _ hm))
    rw [List.cons_append]
    simp only [splitSlash, if_neg hc, List.append_eq, ih']

theorem splitSlash_joinSlash (l : List (List Char)) (hne : l ≠ [])
    (hs : ∀ s ∈ l, '/' ∉ s) : splitSlash (joinSlash l) = l := by
  induction l with
  | nil => exact absurd rfl hne
  | cons s rest ih =>
    rcases rest with _ | ⟨t, r⟩
    · simp only [joinSlash]
      exact splitSlash_of_no_slash s (hs s (List.mem_cons_self _ _))
    · simp only [joinSlash]
      rw [splitSlash_append_slash _ _ (hs s (List.mem_cons_self _ _))]
      rw [ih (by simp) (fun x hx => hs x (List.mem_cons_of_mem _ hx))]

theorem joinSlash_ne_nil (s : List Char) (rest : List (List Char))
    (h : s ≠ []) : joinSlash (s :: rest) ≠ [] := by
  rcases rest with _ | ⟨t, r⟩
  · simpa [joinSlash]
  · rcases s with _ | ⟨c, cs⟩
    · exact absurd rfl h
    · simp [joinSlash]

theorem joinSlash_dotdot_lead (rest : List (List Char)) :
    startsWithL ['.', '.'] (joinSlash (['.', '.'] :: rest)) = true := by
  rcases rest with _ | ⟨t, r⟩
  · simp [joinSlash, startsWithL, List.isPrefixOf]
  · simp [joinSlash, startsWithL, List.isPrefixOf]

/-! ## Lemmas: `cleanL` produces no `..` segment unless it leads -/

theorem cleanPush_mem (rooted : Bool) (acc : List (List Char)) (seg : List Char) :
    ∀ s ∈ cleanPush rooted acc seg,
      (s = seg ∧ seg ≠ []) ∨ s = ['.', '.'] ∨ s ∈ acc := by
  intro s hs
  unfold cleanPush at hs
  by_cases h1 : seg = [] ∨ seg = ['.']
  · rw [if_pos h1] at hs
    exact Or.inr (Or.inr hs)
  · rw [if_neg h1] at hs
    by_cases h2 : seg = ['.', '.']
    · rw [if_pos h2] at hs
      by_cases h3 : acc = []
      · rw [if_pos h3] at hs
        by_cases h4 : rooted = true
        · rw [if_pos h4] at hs
          simp at hs
        · rw [if_neg h4] at hs
          rw [List.mem_singleton.mp hs]
          exact Or.inr (Or.inl rfl)
      · rw [if_neg h3] at hs
        by_cases h5 : acc.headD [] = ['.', '.']
        · rw [if_pos h5] at hs
          rcases List.mem_cons.mp hs with rfl | hs2
          · exact Or.inr (Or.inl rfl)
          · exact Or.inr (Or.inr hs2)
        · rw [if_neg h5] at hs
          exact Or.inr (Or.inr (List.mem_of_mem_tail hs))
    · rw [if_neg h2] at hs
      rcases List.mem_cons.mp hs with rfl | hs2
      · exact Or.inl ⟨rfl, fun he => h1 (Or.inl he)⟩
      · exact Or.inr (Or.inr hs2)

theorem cleanPush_elems (rooted : Bool) (segs : List (List Char)) :
    ∀ acc : List (List Char),
      (∀ s ∈ acc, s ≠ [] ∧ '/' ∉ s) → (∀ s ∈ segs, '/' ∉ s) →
      ∀ s ∈ segs.foldl (cleanPush rooted) acc, s ≠ [] ∧ '/' ∉ s := by
  induction segs with
  | nil => intro acc hacc _ s hs; exact hacc s hs
  | cons seg rest ih =>
    intro acc hacc hsegs
    simp only [List.foldl_cons]
    apply ih
    · intro s hs
      rcases cleanPush_mem rooted acc seg s hs with ⟨rfl, hne⟩ | rfl | hs2
      · exact ⟨hne, hsegs s (List.mem_cons_self _ _)⟩
      · exact ⟨by simp, by simp⟩
      · exact hacc s hs2
    · intro s hs
      exact hsegs s (List.mem_cons_of_mem _ hs)

/-- The accumulator of `cleanPush` is always a block of non-`..` segments on
top of a block of `..` segments (the latter empty when rooted). -/
def AccShape (rooted : Bool) (acc : List (List Char)) : Prop :=
  ∃ nd ad, acc = nd ++ ad ∧ (∀ s ∈ nd, s ≠ ['.', '.']) ∧
    (∀ s ∈ ad, s = ['.', '.']) ∧ (rooted = true → ad = [])

theorem cleanPush_shape (rooted : Bool) (segs : List (List Char)) :
    ∀ acc : List (List Char), AccShape rooted acc →
      AccShape rooted (segs.foldl (cleanPush rooted) acc) := by
  induction segs with
  | nil => intro acc h; exact h
  | cons seg rest ih =>
    intro acc hacc
    simp only [List.foldl_cons]
    apply ih
    rcases hacc with ⟨nd, ad, rfl, hnd, had, hroot⟩
    unfold cleanPush
    by_cases h1 : seg = [] ∨ seg = ['.']
    · rw [if_pos h1]
      exact ⟨nd, ad, rfl, hnd, had, hroot⟩
    · rw [if_neg h1]
      by_cases h2 : seg = ['.', '.']
      · rw [if_pos h2]
        rcases hnd' : nd with _ | ⟨ntop, nrest⟩
        · -- no normal segments: the whole accumulator is the dots block
          subst hnd'
          simp only [List.nil_append]
          by_cases h3 : ad = []
          · rw [if_pos h3]
            by_cases h4 : rooted = true
            · rw [if_pos h4]
              exact ⟨[], [], by simp, by simp, by simp, by simp⟩
            · rw [if_neg h4]
              refine ⟨[], [['.', '.']], by simp, by simp, by simp, ?_⟩
              intro hr; exact absurd hr h4
          · rw [if_neg h3]
            have htop : ad.headD [] = ['.', '.'] := by
              rcases ad with _ | ⟨atop, arest⟩
              · exact absurd rfl h3
              · exact had atop (List.mem_cons_self _ _)
            rw [if_pos htop]
            refine ⟨[], ['.', '.'] :: ad, by simp, by simp, ?_, ?_⟩
            · intro s hs
              rcases List.mem_cons.mp hs with rfl | hs2
              · rfl
              · exact had s hs2
            · intro hr
              exact absurd (hroot hr) h3
        · -- the top is a normal segment: it is popped
          simp only [List.cons_append]
          rw [if_neg (List.cons_ne_nil _ _)]
          have hnotdots : ¬ (ntop :: (nrest ++ ad)).headD [] = ['.', '.'] := by
            simp only [List.headD_cons]
            exact hnd ntop (hnd' ▸ List.mem_cons_self _ _)
          rw [if_neg hnotdots]
          simp only [List.tail_cons]
          exact ⟨nrest, ad, rfl,
                 fun s hs => hnd s (hnd' ▸ List.mem_cons_of_mem _ hs), had, hroot⟩
      · -- ordinary segment pushed on top of the normal block
        rw [if_neg h2]
        refine ⟨seg :: nd, ad, by simp, ?_, had, hroot⟩
        intro s hs
        rcases List.mem_cons.mp hs with rfl | hs2
        · exact h2
        · exact hnd s hs2

theorem splitSlash_joinSlash_mem (l : List (List Char))
    (hel : ∀ s ∈ l, '/' ∉ s) :
    ∀ seg ∈ splitSlash (joinSlash l), seg ∈ l ∨ seg = [] := by
  rcases l with _ | ⟨s, rest⟩
  · simp [joinSlash, splitSlash]
  · rw [splitSlash_joinSlash _ (by simp) hel]
    intro seg h
    exact Or.inl h

theorem cleanL_shape (p : List Char) :
    startsWithL ['.', '.'] (cleanL p) = true ∨
    ∀ seg ∈ splitSlash (cleanL p), seg ≠ ['.', '.'] := by
  unfold cleanL
  by_cases hp : p = []
  · rw [if_pos hp]
    right
    decide
  · rw [if_neg hp]
    by_cases hr : startsWithL ['/'] p = true
    · -- rooted: the cleaned segment list has no ".." at all
      rw [if_pos hr]
      right
      obtain ⟨nd, ad, haccd, hnd, had, hroot⟩ :=
        cleanPush_shape true (splitSlash p) []
          ⟨[], [], by simp, by simp, by simp, by simp⟩
      have had0 : ad = [] := hroot rfl
      have helems :=
        cleanPush_elems true (splitSlash p) [] (by simp) (splitSlash_no_slash p)
      have hcs : cleanSegs true (splitSlash p) = nd.reverse := by
        rw [cleanSegs, haccd, had0, List.append_nil]
      rw [hcs]
      intro seg hseg
      simp only [splitSlash, if_pos rfl] at hseg
      rcases List.mem_cons.mp hseg with rfl | hs2
      · decide
      · rcases splitSlash_joinSlash_mem nd.reverse
          (fun s hs => (helems s (by
            rw [haccd, had0, List.append_nil]
            exact List.mem_reverse.mp hs)).2) seg hs2 with hmem | rfl
        · exact hnd seg (List.mem_reverse.mp hmem)
        · decide
    · -- relative
      rw [if_neg hr]
      obtain ⟨nd, ad, haccd, hnd, had, hroot⟩ :=
        cleanPush_shape false (splitSlash p) []
          ⟨[], [], by simp, by simp, by simp, by simp⟩
      have helems :=
        cleanPush_elems false (splitSlash p) [] (by simp) (splitSlash_no_slash p)
      have hcs : cleanSegs false (splitSlash p) = ad.reverse ++ nd.reverse := by
        rw [cleanSegs, haccd, List.reverse_append]
      rcases had' : ad with _ | ⟨atop, arest⟩
      · -- no leading dots block: every surviving segment is not ".."
        right
        rw [hcs, had', List.reverse_nil, List.nil_append]
        by_cases hbody : joinSlash nd.reverse = []
        · rw [if_pos hbody]
          decide
        · rw [if_neg hbody]
          intro seg hseg
          rcases splitSlash_joinSlash_mem nd.reverse
            (fun s hs => (helems s (by
              rw [haccd, had', List.append_nil]
              exact List.mem_reverse.mp hs)).2) seg hseg with hmem | rfl
          · exact hnd seg (List.mem_reverse.mp hmem)
          · decide
      · -- a leading dots block: the result starts with ".."
        left
        have hrev : ∃ t, cleanSegs false (splitSlash p) = ['.', '.'] :: t := by
          rw [hcs]
          rcases hrv : ad.reverse with _ | ⟨rtop, rrest⟩
          · rw [List.reverse_eq_nil_iff] at hrv
            rw [hrv] at had'
            simp at had'
          · have hdd : rtop = ['.', '.'] := by
              apply had
              rw [← List.mem_reverse, hrv]
              exact List.mem_cons_self _ _
            exact ⟨rrest ++ nd.reverse, by rw [hdd]; simp⟩
        obtain ⟨t, ht⟩ := hrev
        rw [ht]
        have hlead := joinSlash_dotdot_lead t
        have hne : joinSlash (['.', '.'] :: t) ≠ [] :=
          joinSlash_ne_nil _ _ (by decide)
        rw [if_neg hne]
        exact hlead

/-! ## Lemmas: no `..` segment means the join stays under the root -/

theorem resolveUnder_keeps_root (l : List (List Char)) :
    ∀ st : List (List Char), (∀ seg ∈ l, seg ≠ ['.', '.']) →
      st <+: l.foldl resolveStep st := by
  induction l with
  | nil => intro st _; exact List.prefix_refl st
  | cons seg rest ih =>
    intro st hl
    simp only [List.foldl_cons]
    have hstep : st <+: resolveStep st seg := by
      unfold resolveStep
      split
      · exact List.prefix_refl st
      · rw [if_neg (by simpa using hl seg (List.mem_cons_self _ _))]
        exact List.prefix_append st [seg]
    exact hstep.trans (ih (resolveStep st seg) (fun s hs => hl s (List.mem_cons_of_mem _ hs)))

theorem resolveUnder_of_no_dotdot (s : List Char)
    (h : ∀ seg ∈ splitSlash s, seg ≠ ['.', '.']) (root : List (List Char)) :
    root <+: resolveUnder root s :=
  resolveUnder_keeps_root (splitSlash s) root h

/-! ## Claim C1 -/

/-- **C1, counterexample to the claim as stated.**  The claim asserts the
produced path is "either the empty string or a cleaned *relative* path …
for every URL whose path contains `../` the result is empty/rejected or
*strictly inside* the root".  Both refinements fail on the code: for the URL
path `//x` (e.g. seed `http://h//x`) the produced path is `/x`, which begins
with a separator and is not a relative path; and for the URL path `/a/../.`
(which contains `../`) the produced path is `.`, which denotes the output
root itself, not a location strictly inside it. -/
theorem C1_counterexample :
    getPathFromURL ⟨"http", "h", "//x", ""⟩ true = "/x" ∧
    startsWithL ['/'] ("/x".data) = true ∧
    getPathFromURL ⟨"http", "h", "/a/../.", ""⟩ true = "." ∧
    resolveUnder [("out".data)] (".".data) = [("out".data)] := by
  refine ⟨?_, ?_, ?_, ?_⟩ <;> decide

/-- **C1, amended.**  Path-mapping traversal safety: for every resolved URL
and HTML flag, `getPathFromURL` produces either the empty string or a
cleaned path without any `..` segment (it may keep a leading separator when
the URL path begins with a double slash), so that joining it under the
output root always denotes a location at or below — possibly equal to — the
output root. -/
theorem C1_path_mapping_safety (u : GoURL) (isHTML : Bool) :
    getPathFromURL u isHTML = "" ∨
    ((∀ seg ∈ splitSlash (getPathFromURL u isHTML).data, seg ≠ ['.', '.']) ∧
     ∀ root, root <+: resolveUnder root (getPathFromURL u isHTML).data) := by
  unfold getPathFromURL goGetPath
  by_cases hdd : startsWithL ['.', '.']
      (cleanL (trimPreL ['/']
        (if endsWithL ['/'] u.path.data ∨ u.path.data = [] then
          u.path.data ++ (if isHTML then "index.html".data else "index".data)
        else u.path.data))) = true
  · left
    simp only [hdd, if_pos]
  · right
    simp only [hdd, if_neg, Bool.false_eq_true, if_false]
    rcases cleanL_shape (trimPreL ['/']
        (if endsWithL ['/'] u.path.data ∨ u.path.data = [] then
          u.path.data ++ (if isHTML then "index.html".data else "index".data)
        else u.path.data)) with h | h
    · exact absurd h hdd
    · exact ⟨h, resolveUnder_of_no_dotdot _ h⟩

/-- Witness for C1: the amended theorem applied at the seed
`http://h/a/../../etc/passwd` (a crafted traversal URL, which is rejected)
and at `http://h/dir/`. -/
theorem C1_path_mapping_safety_witness :
    (getPathFromURL ⟨"http", "h", "/a/../../etc/passwd", ""⟩ true = "" ∨
      ((∀ seg ∈ splitSlash (getPathFromURL ⟨"http", "h", "/a/../../etc/passwd", ""⟩ true).data,
          seg ≠ ['.', '.']) ∧
       ∀ root, root <+: resolveUnder root
          (getPathFromURL ⟨"http", "h", "/a/../../etc/passwd", ""⟩ true).data)) ∧
    (getPathFromURL ⟨"http", "h", "/dir/", ""⟩ true = "" ∨
      ((∀ seg ∈ splitSlash (getPathFromURL ⟨"http", "h", "/dir/", ""⟩ true).data,
          seg ≠ ['.', '.']) ∧
       ∀ root, root <+: resolveUnder root
          (getPathFromURL ⟨"http", "h", "/dir/", ""⟩ true).data)) :=
  ⟨C1_path_mapping_safety ⟨"http", "h", "/a/../../etc/passwd", ""⟩ true,
   C1_path_mapping_safety ⟨"http", "h", "/dir/", ""⟩ true⟩

/-! ## Lemmas: the walker's events and rewritten tree -/

theorem procAttr_evs (cur : GoURL) (kv : String × String) :
    (procAttr cur kv).2.1 =
      if isLinkKey kv.1 && !skipLink kv.2 then
        [Ev.res cur kv.2 (resolveURL cur kv.2)]
      else [] := by
  unfold procAttr
  by_cases h1 : isLinkKey kv.1 = true
  · rw [if_neg (by simpa using h1)]
    by_cases h2 : skipLink kv.2 = true
    · rw [if_pos h2]
      simp [h1, h2]
    · rw [if_neg h2]
      rcases hres : resolveURL cur kv.2 with _ | ru
      · simp [h1, h2, hres]
      · by_cases h3 : urlString ru = urlString cur
        · simp [h1, h2, hres, h3]
        · simp [h1, h2, hres, h3]
  · rw [if_pos (by simpa using h1)]
    simp [h1]

theorem procAttrs_evs (cur : GoURL) : ∀ attrs : List (String × String),
    (procAttrs cur attrs).2.1 =
      (((attrs.filter (fun kv => isLinkKey kv.1)).map Prod.snd).filter
        (fun l => !skipLink l)).map (fun l => Ev.res cur l (resolveURL cur l)) := by
  intro attrs
  induction attrs with
  | nil => rfl
  | cons kv rest ih =>
    simp only [procAttrs, procAttr_evs, List.filter_cons]
    by_cases h1 : isLinkKey kv.1 = true
    · simp only [h1, if_pos, List.map_cons, List.filter_cons]
      by_cases h2 : skipLink kv.2 = true
      · simp [h1, h2, ih]
      · simp [h1, h2, ih]
    · simp [h1, ih]

mutual

theorem procNode_evs (cur : GoURL) : ∀ t : Html,
    (procNode cur t).2.1 =
      ((flatCands t).filter (fun l => !skipLink l)).map
        (fun l => Ev.res cur l (resolveURL cur l))
  | .elem tag attrs cs => by
    simp only [procNode, flatCands, procAttrs_evs cur attrs,
      procKids_evs cur cs, List.filter_append, List.map_append]
  | .text s => by simp [procNode, flatCands]

theorem procKids_evs (cur : GoURL) : ∀ cs : List Html,
    (procKids cur cs).2.1 =
      ((flatCandsKids cs).filter (fun l => !skipLink l)).map
        (fun l => Ev.res cur l (resolveURL cur l))
  | [] => by simp [procKids, flatCandsKids]
  | c :: cs => by
    simp only [procKids, flatCandsKids, procNode_evs cur c,
      procKids_evs cur cs, List.filter_append, List.map_append]

end

theorem procNode_evs_are_res (cur : GoURL) (t : Html) :
    ∀ ev ∈ (procNode cur t).2.1, ∃ l r, ev = Ev.res cur l r := by
  intro ev hev
  rw [procNode_evs] at hev
  rcases List.mem_map.mp hev with ⟨l, _, rfl⟩
  exact ⟨l, resolveURL cur l, rfl⟩

/-! ## Lemmas: fetch events -/

theorem fetchEvs_append (l1 l2 : List Ev) :
    fetchEvs (l1 ++ l2) = fetchEvs l1 ++ fetchEvs l2 := by
  induction l1 with
  | nil => rfl
  | cons ev rest ih =>
    rcases ev with ⟨u, rd⟩ | ⟨p, l, r⟩ | ⟨v, hh, dd, pp⟩ | ⟨dd⟩ <;> simp [fetchEvs, ih]

theorem fetchEvs_of_res (l : List Ev)
    (h : ∀ ev ∈ l, ∃ li r, ∃ p : GoURL, ev = Ev.res p li r) : fetchEvs l = [] := by
  induction l with
  | nil => rfl
  | cons ev rest ih =>
    obtain ⟨li, r, p, rfl⟩ := h ev (List.mem_cons_self _ _)
    simp only [fetchEvs]
    exact ih (fun e he => h e (List.mem_cons_of_mem _ he))

theorem mem_fetchEvs (l : List Ev) (u : GoURL) (rd : Int) :
    (u, rd) ∈ fetchEvs l ↔ Ev.fetch u rd ∈ l := by
  induction l with
  | nil => simp [fetchEvs]
  | cons ev rest ih =>
    rcases ev with ⟨v, rd'⟩ | ⟨p, li, r⟩ | ⟨v, hh, dd, pp⟩ | ⟨dd⟩ <;>
      simp [fetchEvs, ih, List.mem_cons]

/-- Every fetch event inside a fuel-`fuel` run has remaining depth in
`[0, fuel)`. -/
theorem downloadRecN_fetch_bound (w : World) (base : String) :
    ∀ (fuel : Nat) (u v : GoURL) (rd : Int),
      Ev.fetch v rd ∈ (downloadRecN w base fuel u).2 →
      0 ≤ rd ∧ rd < (fuel : Int) := by
  intro fuel
  induction fuel with
  | zero => intro u v rd h; simp [downloadRecN] at h
  | succ fuel ih =>
    intro u v rd h
    simp only [downloadRecN] at h
    by_cases hg : u.host ≠ base ∧ base ≠ ""
    · rw [if_pos hg] at h
      simp at h
    · rw [if_neg hg] at h
      rcases hw : w (urlString u) with _ | pg <;> simp only [hw] at h
      · rcases List.mem_singleton.mp h with h2
        injection h2 with _ h3
        refine ⟨by omega, by omega⟩
      · by_cases hst : pg.status ≠ 200
        · rw [if_pos hst] at h
          rcases List.mem_singleton.mp h with h2
          injection h2 with _ h3
          refine ⟨by omega, by omega⟩
        · rw [if_neg hst] at h
          by_cases hh : containsL ("text/html".data) pg.contentType.data = true
          · rw [if_pos hh] at h
            rcases List.mem_cons.mp h with h2 | h
            · injection h2 with _ h3
              refine ⟨by omega, by omega⟩
            rcases List.mem_cons.mp h with h2 | h
            · exact absurd h2 (by simp)
            rcases List.mem_append.mp h with h2 | h2
            · obtain ⟨l, r, hres⟩ := procNode_evs_are_res u pg.doc _ h2
              exact absurd hres (by simp)
            · rcases List.mem_flatten.mp h2 with ⟨tr, htr, hev⟩
              rcases List.mem_map.mp htr with ⟨t, _, rfl⟩
              have := ih t v rd hev
              refine ⟨this.1, by omega⟩
          · rw [if_neg hh] at h
            rcases List.mem_cons.mp h with h2 | h
            · injection h2 with _ h3
              refine ⟨by omega, by omega⟩
            · rcases List.mem_singleton.mp h with h2
              exact absurd h2 (by simp)

/-! ## Sample inputs for witnesses and counterexamples -/

/-- Seed `http://a.com/`. -/
def uA : GoURL := ⟨"http", "a.com", "/", ""⟩

/-- A network where every connection fails. -/
def wNone : World := fun _ => none

/-- The front page of `a.com`: one same-domain link, one cross-domain link,
one image. -/
def docA : Html :=
  .elem "html" []
    [.elem "a" [("href", "/about")] [],
     .elem "a" [("href", "https://other.org/x")] [],
     .elem "img" [("src", "logo.png"), ("alt", "a logo")] []]

/-- A small site at `a.com`; everything else is plain text. -/
def wA : World := fun s =>
  if s = "http://a.com/" then some ⟨200, "text/html", docA⟩
  else if s = "http://a.com/about" then
    some ⟨200, "text/html", .elem "a" [("href", "../deep")] []⟩
  else if s = "http://a.com/logo.png" then some ⟨200, "image/png", .text ""⟩
  else some ⟨200, "text/plain", .text ""⟩

/-! ## Claim C2 -/

theorem flatten_map_nil {α β : Type} (ds : List α) :
    (List.map (fun _ => ([] : List β)) ds).flatten = [] := by
  induction ds with
  | nil => rfl
  | cons t ts ih => simp [ih]

theorem downloadRecN_one_fetchEvs (w : World) (u : GoURL) :
    fetchEvs (downloadRecN w u.host 1 u).2 = [(u, 0)] := by
  simp only [downloadRecN]
  rw [if_neg (by simp)]
  rcases hw : w (urlString u) with _ | pg <;> simp only [hw]
  · simp [fetchEvs]
  · by_cases hst : pg.status ≠ 200
    · rw [if_pos hst]
      simp [fetchEvs]
    · rw [if_neg hst]
      by_cases hh : containsL ("text/html".data) pg.contentType.data = true
      · rw [if_pos hh]
        simp only [flatten_map_nil, List.append_eq, List.append_nil, fetchEvs]
        rw [fetchEvs_of_res _ (fun ev hev => by
          obtain ⟨l, r, hres⟩ := procNode_evs_are_res u pg.doc ev hev
          exact ⟨l, r, u, hres⟩)]
        simp
      · rw [if_neg hh]
        simp [fetchEvs]

/-- **C2 (confirmed).**  Depth termination: a call with negative remaining
depth returns immediately with no fetch; every fetch event of a run with
budget `d` carries a remaining depth `rd` with `0 ≤ rd ≤ d`, so its hop
count `d - rd` never exceeds `d`; and with `d = 0` (anchored at the seed's
own hostname, as `Download` does) exactly one fetch — the seed itself at
remaining depth `0` — occurs. -/
theorem C2_depth_termination :
    (∀ (w : World) (u : GoURL) (base : String) (d : Int), d < 0 →
        downloadRecursive w u base d = (.ok (), [])) ∧
    (∀ (w : World) (u : GoURL) (base : String) (d : Int) (v : GoURL) (rd : Int),
        Ev.fetch v rd ∈ (downloadRecursive w u base d).2 →
        0 ≤ rd ∧ rd ≤ d ∧ 0 ≤ d - rd ∧ d - rd ≤ d) ∧
    (∀ (w : World) (u : GoURL),
        fetchEvs (downloadRecursive w u u.host 0).2 = [(u, 0)]) := by
  refine ⟨?_, ?_, ?_⟩
  · intro w u base d hd
    unfold downloadRecursive
    rw [if_pos hd]
  · intro w u base d v rd h
    unfold downloadRecursive at h
    by_cases hd : d < 0
    · rw [if_pos hd] at h
      simp at h
    · rw [if_neg hd] at h
      have hb := downloadRecN_fetch_bound w base (d.toNat + 1) u v rd h
      have htn : (d.toNat : Int) = d := Int.toNat_of_nonneg (by omega)
      push_cast at hb
      omega
  · intro w u
    unfold downloadRecursive
    rw [if_neg (by omega)]
    exact downloadRecN_one_fetchEvs w u

/-- Witness for C2: the negative-depth clause at depth `-1`, the bound
clause at the seed fetch of a concrete one-page run, and the `d = 0`
exactness clause at the failing network. -/
theorem C2_depth_termination_witness :
    downloadRecursive wA uA "a.com" (-1) = (.ok (), []) ∧
    ((0 : Int) ≤ 0 ∧ (0 : Int) ≤ 0 ∧ (0 : Int) ≤ 0 - 0 ∧ (0 : Int) - 0 ≤ 0) ∧
    fetchEvs (downloadRecursive wNone uA uA.host 0).2 = [(uA, 0)] :=
  ⟨C2_depth_termination.1 wA uA "a.com" (-1) (by decide),
   C2_depth_termination.2.1 wA uA "a.com" 0 uA 0 (by decide),
   C2_depth_termination.2.2 wNone uA⟩

/-! ## Claim C3 -/

/-- Every fetch issued in a fuel run with a non-empty anchor targets the
anchor domain. -/
theorem downloadRecN_fetch_host (w : World) (base : String) (hbase : base ≠ "") :
    ∀ (fuel : Nat) (u v : GoURL) (rd : Int),
      Ev.fetch v rd ∈ (downloadRecN w base fuel u).2 → v.host = base := by
  intro fuel
  induction fuel with
  | zero => intro u v rd h; simp [downloadRecN] at h
  | succ fuel ih =>
    intro u v rd h
    simp only [downloadRecN] at h
    by_cases hg : u.host ≠ base ∧ base ≠ ""
    · rw [if_pos hg] at h
      simp at h
    · rw [if_neg hg] at h
      have hu : u.host = base := by
        by_cases he : u.host = base
        · exact he
        · exact absurd ⟨he, hbase⟩ hg
      rcases hw : w (urlString u) with _ | pg <;> simp only [hw] at h
      · rcases List.mem_singleton.mp h with h2
        injection h2 with h3 _
        rw [← h3] at hu
        exact hu
      · by_cases hst : pg.status ≠ 200
        · rw [if_pos hst] at h
          rcases List.mem_singleton.mp h with h2
          injection h2 with h3 _
          rw [← h3] at hu
          exact hu
        · rw [if_neg hst] at h
          by_cases hh : containsL ("text/html".data) pg.contentType.data = true
          · rw [if_pos hh] at h
            rcases List.mem_cons.mp h with h2 | h
            · injection h2 with h3 _
              rw [← h3] at hu
              exact hu
            rcases List.mem_cons.mp h with h2 | h
            · exact absurd h2 (by simp)
            rcases List.mem_append.mp h with h2 | h2
            · obtain ⟨l, r, hres⟩ := procNode_evs_are_res u pg.doc _ h2
              exact absurd hres (by simp)
            · rcases List.mem_flatten.mp h2 with ⟨tr, htr, hev⟩
              rcases List.mem_map.mp htr with ⟨t, _, rfl⟩
              exact ih t v rd hev
          · rw [if_neg hh] at h
            rcases List.mem_cons.mp h with h2 | h
            · injection h2 with h3 _
              rw [← h3] at hu
              exact hu
            · rcases List.mem_singleton.mp h with h2
              exact absurd h2 (by simp)

/-- **C3, counterexample to the claim as stated.**  The claim asserts a
cross-domain resource "may still be fetched and saved when directly linked
from a same-domain page".  It is not: mirroring `http://a.com/` (whose front
page links `https://other.org/x` directly) at depth 1 resolves and rewrites
the cross-domain link — the resolution event is in the trace — but the only
fetches issued are the seed and its two same-domain links; `downloadRecursive`
returns at the domain guard before issuing any request for `other.org`. -/
theorem C3_counterexample :
    Ev.res uA "https://other.org/x" (some ⟨"https", "other.org", "/x", ""⟩)
        ∈ (downloadRecursive wA uA "a.com" 1).2 ∧
    fetchEvs (downloadRecursive wA uA "a.com" 1).2 =
      [(uA, 1), (⟨"http", "a.com", "/about", ""⟩, 0),
       (⟨"http", "a.com", "/logo.png", ""⟩, 0)] := by
  exact ⟨by decide, by decide⟩

/-- **C3, amended.**  Domain containment: with a non-empty anchor domain D,
every fetch the traversal ever issues targets hostname D; a target whose
hostname differs from D is neither recursed into nor even fetched — the
guard returns before the HTTP request — although the link to it in the
referring page is still rewritten. -/
theorem C3_domain_containment (w : World) (u : GoURL) (base : String)
    (d : Int) (hbase : base ≠ "") :
    ∀ (v : GoURL) (rd : Int),
      Ev.fetch v rd ∈ (downloadRecursive w u base d).2 → v.host = base := by
  intro v rd h
  unfold downloadRecursive at h
  by_cases hd : d < 0
  · rw [if_pos hd] at h
    simp at h
  · rw [if_neg hd] at h
    exact downloadRecN_fetch_host w base hbase (d.toNat + 1) u v rd h

/-- Witness for C3: the amended theorem applied to the concrete `a.com`
mirror at depth 1 and the fetch of `/about`. -/
theorem C3_domain_containment_witness :
    (GoURL.mk "http" "a.com" "/about" "").host = "a.com" :=
  C3_domain_containment wA uA "a.com" 1 (by decide)
    ⟨"http", "a.com", "/about", ""⟩ 0 (by decide)

/-! ## Claim C4 -/

theorem procAttr_fst (cur : GoURL) (kv : String × String) :
    (procAttr cur kv).1 =
      if isLinkKey kv.1 then (kv.1, rewrittenVal cur kv.2) else kv := by
  unfold procAttr rewrittenVal
  by_cases h1 : isLinkKey kv.1 = true
  · by_cases h2 : skipLink kv.2 = true
    · simp [h1, h2]
    · rcases hres : resolveURL cur kv.2 with _ | ru
      · simp [h1, h2, hres]
      · by_cases h3 : urlString ru = urlString cur
        · simp [h1, h2, hres, h3]
        · simp [h1, h2, hres, h3]
  · simp [h1]

theorem procAttrs_fst (cur : GoURL) : ∀ attrs : List (String × String),
    (procAttrs cur attrs).1 =
      attrs.map (fun kv =>
        if isLinkKey kv.1 then (kv.1, rewrittenVal cur kv.2) else kv) := by
  intro attrs
  induction attrs with
  | nil => rfl
  | cons kv rest ih => simp [procAttrs, procAttr_fst, ih]

mutual

theorem procNode_fst (cur : GoURL) : ∀ t : Html,
    (procNode cur t).1 = mapAttrsTree cur t
  | .elem tag attrs cs => by
    simp only [procNode, mapAttrsTree, procAttrs_fst, procKids_fst cur cs]
  | .text s => rfl

theorem procKids_fst (cur : GoURL) : ∀ cs : List Html,
    (procKids cur cs).1 = mapAttrsKids cur cs
  | [] => rfl
  | c :: cs => by
    simp only [procKids, mapAttrsKids, procNode_fst cur c, procKids_fst cur cs]

end

/-- **C4, counterexample to the claim as stated.**  Two failures.  (1) The
classification is not "inferred from the link's resolved extension" but by
substring containment of `.html`/`.htm` in the raw attribute text: on page
`http://h/` the link `/a.html/` (a directory path, no extension) is
rewritten to `a.html/index.html`, while the mapping under the
resolved-extension classification is `a.html/index`.  (2) A surviving
candidate whose resolution equals the current page's URL is left as written:
on page `http://h/p` the self-link `./p` survives the filter but keeps the
value `./p`, different from the mapping `p` of its resolved URL. -/
theorem C4_counterexample :
    (procNode ⟨"http", "h", "/", ""⟩ (.elem "a" [("href", "/a.html/")] [])).1 =
      .elem "a" [("href", "a.html/index.html")] [] ∧
    getPathFromURL ⟨"http", "h", "/a.html/", ""⟩
        (specResolvedExtHTML ⟨"http", "h", "/a.html/", ""⟩) = "a.html/index" ∧
    ("a.html/index.html" : String) ≠ "a.html/index" ∧
    skipLink "./p" = false ∧
    resolveURL ⟨"http", "h", "/p", ""⟩ "./p" = some ⟨"http", "h", "/p", ""⟩ ∧
    (procNode ⟨"http", "h", "/p", ""⟩ (.elem "a" [("href", "./p")] [])).1 =
      .elem "a" [("href", "./p")] [] ∧
    getPathFromURL ⟨"http", "h", "/p", ""⟩
        (specResolvedExtHTML ⟨"http", "h", "/p", ""⟩) = "p" ∧
    ("./p" : String) ≠ "p" := by
  refine ⟨?_, ?_, ?_, ?_, ?_, ?_, ?_, ?_⟩ <;> decide

/-- **C4, amended.**  Rewrite consistency: the document a page-processing
step saves is exactly the pointwise rewrite of the fetched document in which
every surviving link-attribute candidate (non-empty, non-fragment,
non-mailto/tel) whose resolution against the page URL is non-nil and
*differs from the page's own URL* has its value replaced by the local path
mapping of its resolved URL under the raw-text `.html`/`.htm`-containment
classification, and every other attribute is left unchanged. -/
theorem C4_rewrite_consistency (cur : GoURL) (t : Html) :
    (procNode cur t).1 = mapAttrsTree cur t ∧
    ∀ v : String, skipLink v = false →
      ∀ ru : GoURL, resolveURL cur v = some ru → urlString ru ≠ urlString cur →
        rewrittenVal cur v = getPathFromURL ru (linkLooksHTML v) := by
  refine ⟨procNode_fst cur t, ?_⟩
  intro v hskip ru hres hne
  simp [rewrittenVal, hskip, hres, hne]

/-- Witness for C4: the amended theorem applied at the `a.com` front page,
with the surviving-link clause instantiated on the image link `logo.png`. -/
theorem C4_rewrite_consistency_witness :
    (procNode uA docA).1 = mapAttrsTree uA docA ∧
    rewrittenVal uA "logo.png" =
      getPathFromURL ⟨"http", "a.com", "/logo.png", ""⟩ (linkLooksHTML "logo.png") :=
  ⟨(C4_rewrite_consistency uA docA).1,
   (C4_rewrite_consistency uA docA).2 "logo.png" (by decide)
     ⟨"http", "a.com", "/logo.png", ""⟩ (by decide) (by decide)⟩

/-! ## Claim C5 -/

/-- Every resolution event of a run is a genuine `resolveURL` against the
emitting page's own URL, performed on a candidate that survived the filter. -/
theorem downloadRecN_res_evs (w : World) (base : String) :
    ∀ (fuel : Nat) (u p : GoURL) (l : String) (r : Option GoURL),
      Ev.res p l r ∈ (downloadRecN w base fuel u).2 →
      r = resolveURL p l ∧ skipLink l = false := by
  intro fuel
  induction fuel with
  | zero => intro u p l r h; simp [downloadRecN] at h
  | succ fuel ih =>
    intro u p l r h
    simp only [downloadRecN] at h
    by_cases hg : u.host ≠ base ∧ base ≠ ""
    · rw [if_pos hg] at h
      simp at h
    · rw [if_neg hg] at h
      rcases hw : w (urlString u) with _ | pg <;> simp only [hw] at h
      · rcases List.mem_singleton.mp h with h2
        exact absurd h2 (by simp)
      · by_cases hst : pg.status ≠ 200
        · rw [if_pos hst] at h
          rcases List.mem_singleton.mp h with h2
          exact absurd h2 (by simp)
        · rw [if_neg hst] at h
          by_cases hh : containsL ("text/html".data) pg.contentType.data = true
          · rw [if_pos hh] at h
            rcases List.mem_cons.mp h with h2 | h
            · exact absurd h2 (by simp)
            rcases List.mem_cons.mp h with h2 | h
            · exact absurd h2 (by simp)
            rcases List.mem_append.mp h with h2 | h2
            · rw [procNode_evs] at h2
              rcases List.mem_map.mp h2 with ⟨l', hl', heq⟩
              injection heq with hp hl hr
              subst hp
              subst hl
              refine ⟨hr.symm, ?_⟩
              have := List.of_mem_filter hl'
              simpa using this
            · rcases List.mem_flatten.mp h2 with ⟨tr, htr, hev⟩
              rcases List.mem_map.mp htr with ⟨t, _, rfl⟩
              exact ih t p l r hev
          · rw [if_neg hh] at h
            rcases List.mem_cons.mp h with h2 | h
            · exact absurd h2 (by simp)
            · rcases List.mem_singleton.mp h with h2
              exact absurd h2 (by simp)

/-- **C5 (confirmed).**  Link extraction and resolution: (a) walking a page
resolves exactly the candidate attribute values (href/src/poster, in walk
order) that survive the filter, each against the page's own URL; (b) the
filter skips a candidate exactly when it is empty, starts with `#`, or uses
the `mailto:`/`tel:` scheme; (c) over a whole recursive run, every
resolution event resolves its link against the URL of the page it was found
on (the current document, not the original seed). -/
theorem C5_link_extraction :
    (∀ (cur : GoURL) (t : Html),
        (procNode cur t).2.1 =
          ((flatCands t).filter (fun l => !skipLink l)).map
            (fun l => Ev.res cur l (resolveURL cur l))) ∧
    (∀ l : String, skipLink l = true ↔
        (l = "" ∨ startsWithL ['#'] l.data = true
          ∨ startsWithL ("mailto:".data) l.data = true
          ∨ startsWithL ("tel:".data) l.data = true)) ∧
    (∀ (w : World) (u : GoURL) (base : String) (d : Int) (p : GoURL)
        (l : String) (r : Option GoURL),
        Ev.res p l r ∈ (downloadRecursive w u base d).2 →
        r = resolveURL p l ∧ skipLink l = false) := by
  refine ⟨fun cur t => procNode_evs cur t, ?_, ?_⟩
  · intro l
    simp [skipLink, Bool.or_eq_true, decide_eq_true_eq, or_assoc]
  · intro w u base d p l r h
    unfold downloadRecursive at h
    by_cases hd : d < 0
    · rw [if_pos hd] at h
      simp at h
    · rw [if_neg hd] at h
      exact downloadRecN_res_evs w base (d.toNat + 1) u p l r h

/-- Witness for C5: clause (c) applied to the resolution of `../deep` found
on the nested page `http://a.com/about` — resolved against that page, not
the seed `http://a.com/`. -/
theorem C5_link_extraction_witness :
    some (GoURL.mk "http" "a.com" "/deep" "") =
      resolveURL ⟨"http", "a.com", "/about", ""⟩ "../deep" ∧
    skipLink "../deep" = false :=
  C5_link_extraction.2.2 wA uA "a.com" 1 ⟨"http", "a.com", "/about", ""⟩
    "../deep" (some ⟨"http", "a.com", "/deep", ""⟩) (by decide)

/-! ## Claim C6 -/

/-- When the guard passes, the first event of a positive-fuel run is the
fetch of the target itself. -/
theorem downloadRecN_head_fetch (w : World) (base : String) (fuel : Nat)
    (u : GoURL) (hg : ¬(u.host ≠ base ∧ base ≠ "")) :
    Ev.fetch u (fuel : Int) ∈ (downloadRecN w base (fuel + 1) u).2 := by
  simp only [downloadRecN]
  rw [if_neg hg]
  rcases hw : w (urlString u) with _ | pg <;> simp only [hw]
  · simp
  · by_cases hst : pg.status ≠ 200
    · rw [if_pos hst]
      simp
    · rw [if_neg hst]
      by_cases hh : containsL ("text/html".data) pg.contentType.data = true
      · rw [if_pos hh]
        exact List.mem_cons_self _ _
      · rw [if_neg hh]
        simp

/-- **C6, counterexample to the claim as stated.**  The mirroring entry
point `Download` performs no depth validation: called on the valid seed
`http://a.com/x` with depth `-1` (outside `[0, MaxDepth]`) it creates the
output directory and returns success — no validation error is produced. -/
theorem C6_counterexample :
    Download wA "http://a.com/x" (-1) "out" = (.ok (), [Ev.mkdirRoot "out"]) := by
  decide

/-- **C6, amended.**  Only the wget-based downloader validates the depth
range: `downloadWithWget` returns an error before invoking wget whenever
`depth < 0` or `depth > MaxDepth`.  The recursive `Download` entry point
performs no depth validation: a negative depth silently succeeds with no
fetch after creating the output root, and any non-negative depth — also
beyond `MaxDepth` — proceeds to fetch the seed. -/
theorem C6_depth_validation (url outputDir : String) (maxDepth d : Int) :
    ((d < 0 ∨ d > maxDepth) →
        downloadWithWget url d outputDir maxDepth = .error ()) ∧
    (∀ (w : World) (u : GoURL), parseURL url = some u →
        (u.scheme = "http" ∨ u.scheme = "https") → d < 0 →
        Download w url d outputDir = (.ok (), [Ev.mkdirRoot outputDir])) ∧
    (∀ (w : World) (u : GoURL), parseURL url = some u →
        (u.scheme = "http" ∨ u.scheme = "https") → 0 ≤ d →
        Ev.fetch u d ∈ (Download w url d outputDir).2) := by
  refine ⟨?_, ?_, ?_⟩
  · intro hd
    unfold downloadWithWget
    rw [if_pos hd]
  · intro w u hp hsch hd
    simp only [Download, hp]
    rw [if_neg (by rcases hsch with h | h <;> simp [h])]
    simp only [downloadRecursive, if_pos hd]
  · intro w u hp hsch hd
    simp only [Download, hp]
    rw [if_neg (by rcases hsch with h | h <;> simp [h])]
    show Ev.fetch u d ∈ Ev.mkdirRoot outputDir :: (downloadRecursive w u u.host d).2
    apply List.mem_cons_of_mem
    unfold downloadRecursive
    rw [if_neg (by omega)]
    have := downloadRecN_head_fetch w u.host d.toNat u (by simp)
    rwa [Int.toNat_of_nonneg hd] at this

/-- Witness for C6: wget rejects depth `-1`; `Download` succeeds at depth
`-1` without fetching; and at depth `6 > MaxDepth = 5` the seed is fetched
(no upper-bound validation either). -/
theorem C6_depth_validation_witness :
    downloadWithWget "http://a.com/" (-1) "out" 5 = .error () ∧
    Download wNone "http://a.com/x" (-1) "out" = (.ok (), [Ev.mkdirRoot "out"]) ∧
    Ev.fetch uA 6 ∈ (Download wNone "http://a.com/" 6 "out").2 :=
  ⟨(C6_depth_validation "http://a.com/" "out" 5 (-1)).1 (by omega),
   (C6_depth_validation "http://a.com/x" "out" 5 (-1)).2.1 wNone
     ⟨"http", "a.com", "/x", ""⟩ (by decide) (by decide) (by omega),
   (C6_depth_validation "http://a.com/" "out" 5 6).2.2 wNone uA
     (by decide) (by decide) (by omega)⟩

/-! ## Claim C7 -/

/-- **C7 (confirmed).**  Seed-URL validation fails fast: if the seed does
not parse, or parses with a scheme other than `http`/`https` (in Go an
"absolute URL" is one with a non-empty scheme), `Download` returns an
invalid-input error with an empty event trace — no directory creation and
no fetch; if it parses with an allowed scheme, validation succeeds and the
run proceeds (output root created, then the recursive traversal anchored at
the seed's hostname). -/
theorem C7_seed_validation (w : World) (raw : String) (d : Int) (out : String) :
    (parseURL raw = none → Download w raw d out = (.error .badURL, [])) ∧
    (∀ u : GoURL, parseURL raw = some u →
        u.scheme ≠ "http" → u.scheme ≠ "https" →
        Download w raw d out = (.error .badScheme, [])) ∧
    (∀ u : GoURL, parseURL raw = some u →
        (u.scheme = "http" ∨ u.scheme = "https") →
        Download w raw d out =
          ((downloadRecursive w u u.host d).1,
           Ev.mkdirRoot out :: (downloadRecursive w u u.host d).2)) := by
  refine ⟨?_, ?_, ?_⟩
  · intro hp
    simp only [Download, hp]
  · intro u hp h1 h2
    simp only [Download, hp]
    rw [if_pos ⟨h1, h2⟩]
  · intro u hp hsch
    simp only [Download, hp]
    rw [if_neg (by rcases hsch with h | h <;> simp [h])]

/-- Witness for C7: `::` fails to parse (error, no events), `ftp://h/p` has
a disallowed scheme (error, no events), and `http://a.com/` passes
validation and proceeds to the traversal. -/
theorem C7_seed_validation_witness :
    Download wNone "::" 0 "out" = (.error .badURL, []) ∧
    Download wNone "ftp://h/p" 0 "out" = (.error .badScheme, []) ∧
    Download wNone "http://a.com/" 0 "out" =
      ((downloadRecursive wNone uA uA.host 0).1,
       Ev.mkdirRoot "out" :: (downloadRecursive wNone uA uA.host 0).2) :=
  ⟨(C7_seed_validation wNone "::" 0 "out").1 (by decide),
   (C7_seed_validation wNone "ftp://h/p" 0 "out").2.1
     ⟨"ftp", "h", "/p", ""⟩ (by decide) (by decide) (by decide),
   (C7_seed_validation wNone "http://a.com/" 0 "out").2.2 uA
     (by decide) (Or.inl (by decide))⟩

/-! ## Claim C8 -/

/-- The result a target reports depends only on its own response: network
error when the connection fails, status error when the code is not 200,
success otherwise — child outcomes are discarded. -/
theorem downloadRecN_result (w : World) (base : String) (fuel : Nat)
    (u : GoURL) (hg : ¬(u.host ≠ base ∧ base ≠ "")) :
    (downloadRecN w base (fuel + 1) u).1 =
      match w (urlString u) with
      | none => .error (.network (urlString u))
      | some pg =>
        if pg.status ≠ 200 then .error (.status (urlString u) pg.status)
        else .ok () := by
  simp only [downloadRecN]
  rw [if_neg hg]
  rcases hw : w (urlString u) with _ | pg
  · simp [hw]
  · simp only [hw]
    by_cases hst : pg.status ≠ 200
    · rw [if_pos hst, if_pos hst]
    · rw [if_neg hst, if_neg hst]
      by_cases hh : containsL ("text/html".data) pg.contentType.data = true
      · rw [if_pos hh]
      · rw [if_neg hh]

/-- A network returning `204 No Content` (a 2xx status) for everything. -/
def w204 : World := fun _ => some ⟨204, "text/html", .text ""⟩

/-- `w204` restricted to the seed alone; every other URL fails to connect. -/
def w204only : World := fun s =>
  if s = "http://a.com/" then some ⟨204, "text/html", .text ""⟩ else none

/-- **C8, counterexample to the claim as stated.**  The claim says a fetch
is aborted for a status-based reason exactly when the status is non-2xx.
But the code tests `resp.StatusCode != http.StatusOK`: fetching
`http://a.com/` when the server answers `204 No Content` — a 2xx status —
aborts with a status error. -/
theorem C8_counterexample :
    (downloadRecursive w204 uA "a.com" 0).1 =
      .error (.status ("http://a.com/") 204) := by
  decide

/-- **C8, amended.**  Status-based failure: a fetched target is aborted for
a status-based reason exactly when the HTTP status differs from `200`
(`http.StatusOK`) — not "non-2xx" — and such a failure is local to that one
target: the result a target reports is a function of its own response alone,
so changing the network's behaviour at every other URL (children, siblings,
ancestors) leaves its result unchanged. -/
theorem C8_status_failure (w : World) (u : GoURL) (base : String) (d : Int)
    (hd : 0 ≤ d) (hg : u.host = base ∨ base = "") :
    (∀ pg : Page, w (urlString u) = some pg →
        ((downloadRecursive w u base d).1 =
            .error (.status (urlString u) pg.status) ↔ pg.status ≠ 200)) ∧
    (∀ w' : World, w' (urlString u) = w (urlString u) →
        (downloadRecursive w' u base d).1 = (downloadRecursive w u base d).1) := by
  have hg' : ¬(u.host ≠ base ∧ base ≠ "") := by
    rcases hg with h | h <;> simp [h]
  constructor
  · intro pg hw
    unfold downloadRecursive
    rw [if_neg (by omega)]
    have hr := downloadRecN_result w base d.toNat u hg'
    simp only [hw] at hr
    rw [hr]
    by_cases hst : pg.status ≠ 200
    · rw [if_pos hst]
      simp [hst]
    · rw [if_neg hst]
      simp only [hst, iff_false]
      intro hok
      exact absurd hok (by simp)
  · intro w' hw'
    unfold downloadRecursive
    simp only [if_neg (show ¬ d < 0 by omega)]
    have h1 := downloadRecN_result w base d.toNat u hg'
    have h2 := downloadRecN_result w' base d.toNat u hg'
    rw [hw'] at h2
    rw [h1, h2]

/-- Witness for C8: at the `204` network the seed aborts with a status
error (204 ≠ 200), and restricting the network to the seed's own response
leaves the seed's result unchanged. -/
theorem C8_status_failure_witness :
    ((downloadRecursive w204 uA "a.com" 0).1 =
        .error (.status (urlString uA) (204 : Nat)) ↔ (204 : Nat) ≠ 200) ∧
    (downloadRecursive w204only uA "a.com" 0).1 =
      (downloadRecursive w204 uA "a.com" 0).1 :=
  ⟨(C8_status_failure w204 uA "a.com" 0 (by omega) (Or.inl (by decide))).1
     ⟨204, "text/html", .text ""⟩ (by decide),
   (C8_status_failure w204 uA "a.com" 0 (by omega) (Or.inl (by decide))).2
     w204only (by decide)⟩

/-! ## Claim C9 -/

/-- A chain crossing three hostnames: `e.com` links to `f.org`, which links
to `g.net`. -/
def wChain : World := fun s =>
  if s = "http://e.com/" then
    some ⟨200, "text/html", .elem "a" [("href", "http://f.org/x")] []⟩
  else if s = "http://f.org/x" then
    some ⟨200, "text/html", .elem "a" [("href", "http://g.net/y")] []⟩
  else some ⟨200, "text/plain", .text ""⟩

/-- **C9 (confirmed).**  Empty domain anchor disables containment: the seed
`http:///path` parses with an empty hostname and passes scheme validation;
with anchor `""` the cross-domain guard never blocks — every target is
fetched whatever its hostname — and a depth-2 mirror of the `e.com` chain
anchored at `""` fetches `e.com`, recurses into the cross-domain `f.org`
page (extracting its links) and fetches `g.net`; so domain containment
holds only under the precondition that the anchor hostname is non-empty. -/
theorem C9_empty_anchor :
    (parseURL "http:///path" = some ⟨"http", "", "/path", ""⟩ ∧
     validateURL "http:///path" = true) ∧
    (∀ (w : World) (u : GoURL) (d : Int), 0 ≤ d →
        Ev.fetch u d ∈ (downloadRecursive w u "" d).2) ∧
    fetchEvs (downloadRecursive wChain ⟨"http", "e.com", "/", ""⟩ "" 2).2 =
      [(⟨"http", "e.com", "/", ""⟩, 2), (⟨"http", "f.org", "/x", ""⟩, 1),
       (⟨"http", "g.net", "/y", ""⟩, 0)] := by
  refine ⟨⟨by decide, by decide⟩, ?_, by decide⟩
  intro w u d hd
  unfold downloadRecursive
  rw [if_neg (by omega)]
  have := downloadRecN_head_fetch w "" d.toNat u (by simp)
  rwa [Int.toNat_of_nonneg hd] at this

/-- Witness for C9: the guard-skipping clause applied to an arbitrary-host
target at depth 0 under the empty anchor. -/
theorem C9_empty_anchor_witness :
    Ev.fetch ⟨"http", "evil.example", "/", ""⟩ 0 ∈
      (downloadRecursive wNone ⟨"http", "evil.example", "/", ""⟩ "" 0).2 :=
  C9_empty_anchor.2.1 wNone ⟨"http", "evil.example", "/", ""⟩ 0 (by omega)

/-! ## Claim C10 -/

/-- **C10 (confirmed).**  Output directory removed even on success: once the
per-URL output directory is created, every download outcome ends in
`os.RemoveAll(outputDir)` — the post-download helper ends with the removal
unconditionally (whatever the snapshot count and whether a ZIM file was
requested), the success path of `processURL` runs it, and the failure path
removes the directory when reporting the error — so the mirrored tree never
remains on disk at the reported output path. -/
theorem C10_output_dir_removed :
    (∀ (downloadOK : Bool) (snapCount : Nat) (createZim : Bool),
        DrvEv.removeAll ∈ processURL true downloadOK snapCount createZim) ∧
    (∀ (snapCount : Nat) (createZim : Bool),
        (handlePostDownloadTasks snapCount createZim).getLast? =
          some DrvEv.removeAll) ∧
    (∀ (snapCount : Nat) (createZim : Bool),
        processURL true true snapCount createZim =
          DrvEv.mkdirOut :: DrvEv.downloadAttempt ::
            (handlePostDownloadTasks snapCount createZim ++ [DrvEv.result true])) ∧
    processURL true false 0 false =
      [DrvEv.mkdirOut, DrvEv.downloadAttempt, DrvEv.result false,
       DrvEv.removeAll] := by
  refine ⟨?_, ?_, ?_, by decide⟩
  · intro downloadOK snapCount createZim
    cases downloadOK <;>
      simp [processURL, handlePostDownloadTasks, handleDownloadResult]
  · intro snapCount createZim
    unfold handlePostDownloadTasks
    rw [List.getLast?_concat]
  · intro snapCount createZim
    simp [processURL, handleDownloadResult]

end WebArch
